import Mathlib

/-!
Shallow embedding of the Onyx directed-graph adjacency store (src/main.go).

Go strings are modelled as lists of characters, Go maps as association
lists whose iteration order is the list order, and the badger key-value
engine as an association list from keys to raw values together with a
transaction record holding a read snapshot and a pending write set.
-/

namespace Onyx

/-- A Go string (a byte sequence); node identifiers and raw record values. -/
abbrev GoStr := List Char

/-- The codec delimiter byte, the vertical bar. -/
def delim : Char := '|'

/-- A Go map from string to bool, as an association list; the list order
models the (arbitrary) Go map iteration order. -/
abbrev EdgeMap := List (GoStr × Bool)

/-- Association-list lookup, modelling Go map indexing. -/
def mapLookup (k : GoStr) : List (GoStr × α) → Option α
  | [] => none
  | p :: rest => if p.1 = k then some p.2 else mapLookup k rest

/-- Association-list store, modelling Go map assignment m[k] = v:
updates the entry in place when the key is present, appends otherwise. -/
def mapInsert (k : GoStr) (v : α) : List (GoStr × α) → List (GoStr × α)
  | [] => [(k, v)]
  | p :: rest => if p.1 = k then (k, v) :: rest else p :: mapInsert k v rest

/-- Association-list removal, modelling Go delete(m, k). -/
def mapDelete (k : GoStr) : List (GoStr × α) → List (GoStr × α)
  | [] => []
  | p :: rest => if p.1 = k then mapDelete k rest else p :: mapDelete k rest

/-- The keys of an association list. -/
def mapKeys (m : List (GoStr × α)) : List GoStr :=
  m.map (fun p => p.1)

/-- The keys an EdgeMap sends to true: the destination set it represents. -/
def trueKeys (m : EdgeMap) : List GoStr :=
  (m.filter (fun p => p.2)).map (fun p => p.1)

/-- SerializeEdgeMap from src/main.go lines 135-143: for each entry with a
true value, append the key followed by the delimiter. -/
def SerializeEdgeMap (m : EdgeMap) : GoStr :=
  m.foldl (fun acc p => if p.2 then acc ++ p.1 ++ [delim] else acc) []

/-- Go strings.Split on the single-byte separator: the list of maximal
segments between delimiter occurrences; on the empty string it returns
one empty segment, matching strings.Split. -/
def goSplit : GoStr → List GoStr
  | [] => [[]]
  | c :: rest =>
    match goSplit rest with
    | [] => [[]]
    | seg :: segs => if c = delim then [] :: seg :: segs else (c :: seg) :: segs

/-- DeserializeEdgeMap from src/main.go lines 145-160: split on the
delimiter, drop the single trailing empty segment when present, and map
every remaining segment to true. -/
def DeserializeEdgeMap (s : GoStr) : EdgeMap :=
  let slice := goSplit s
  let slice := if slice.getLast? = some [] then slice.dropLast else slice
  slice.foldl (fun m v => mapInsert v true m) []

/-- The error outcomes of the badger engine that the store distinguishes:
the key-not-found read error, the commit-time conflict, and any other
engine failure (identified by an opaque code). -/
inductive GErr where
  | keyNotFound : GErr
  | conflict : GErr
  | engineFailure : Nat → GErr
deriving DecidableEq, Repr

/-- A badger transaction: a read snapshot (reads may fail with any engine
error) and the pending write set staged by Set calls. -/
structure Txn where
  snapshot : GoStr → Except GErr GoStr
  writes : List (GoStr × GoStr)

/-- Transaction read, modelling badger Txn.Get followed by ValueCopy: a key
in the pending write set is served from it, otherwise from the snapshot. -/
def txnGet (txn : Txn) (k : GoStr) : Except GErr GoStr :=
  match mapLookup k txn.writes with
  | some v => .ok v
  | none => txn.snapshot k

/-- Transaction write, modelling badger Txn.Set: stages the pair in the
pending write set. -/
def txnSet (txn : Txn) (k v : GoStr) : Txn :=
  { txn with writes := mapInsert k v txn.writes }

/-- AddEdge body from src/main.go lines 31-69, acting on a caller-supplied
transaction: read the record of the source, treating key-not-found as the
empty map and propagating any other failure with the transaction untouched;
insert the destination; stage the re-encoded map under the source key. -/
def addEdgeT (f t : GoStr) (txn : Txn) : Txn × Option GErr :=
  match txnGet txn f with
  | .error .keyNotFound =>
    let dstNodes := mapInsert t true ([] : EdgeMap)
    (txnSet txn f (SerializeEdgeMap dstNodes), none)
  | .error e => (txn, some e)
  | .ok valCopy =>
    let dstNodes := mapInsert t true (DeserializeEdgeMap valCopy)
    (txnSet txn f (SerializeEdgeMap dstNodes), none)

/-- RemoveEdge body from src/main.go lines 71-105, acting on a
caller-supplied transaction: read the record of the source, propagating any
failure with the transaction untouched; delete the destination; stage the
re-encoded map under the source key. -/
def removeEdgeT (f t : GoStr) (txn : Txn) : Txn × Option GErr :=
  match txnGet txn f with
  | .error e => (txn, some e)
  | .ok valCopy =>
    let dstNodes := mapDelete t (DeserializeEdgeMap valCopy)
    (txnSet txn f (SerializeEdgeMap dstNodes), none)

/-- GetEdges body from src/main.go lines 107-133, acting on a
caller-supplied transaction: read and decode the record of the source,
propagating any read failure. -/
def getEdgesT (f : GoStr) (txn : Txn) : Except GErr EdgeMap :=
  match txnGet txn f with
  | .error e => .error e
  | .ok valCopy => .ok (DeserializeEdgeMap valCopy)

/-- The committed contents of the engine: keys mapped to raw record
values. -/
abbrev Store := List (GoStr × GoStr)

/-- A fresh transaction over a store: the snapshot serves committed values
and fails with keyNotFound on absent keys; the write set starts empty. -/
def storeTxn (g : Store) : Txn :=
  { snapshot := fun k =>
      match mapLookup k g with
      | some v => .ok v
      | none => .error .keyNotFound
    writes := [] }

/-- Applying the pending write set of a transaction to the store, the
effect of an uncontended commit. -/
def commitTxn (g : Store) (txn : Txn) : Store :=
  txn.writes.foldl (fun s p => mapInsert p.1 p.2 s) g

/-- AddEdge called with a nil transaction (the localTxn branch): open a
fresh transaction on the store, run the body, commit on success. -/
def addEdgeStore (g : Store) (f t : GoStr) : Except GErr Store :=
  match addEdgeT f t (storeTxn g) with
  | (_, some e) => .error e
  | (txn, none) => .ok (commitTxn g txn)

/-- RemoveEdge called with a nil transaction (the localTxn branch). -/
def removeEdgeStore (g : Store) (f t : GoStr) : Except GErr Store :=
  match removeEdgeT f t (storeTxn g) with
  | (_, some e) => .error e
  | (txn, none) => .ok (commitTxn g txn)

/-- GetEdges called with a nil transaction (the localTxn branch); the
read-only commit always succeeds and is omitted. -/
def getEdgesStore (g : Store) (f : GoStr) : Except GErr EdgeMap :=
  getEdgesT f (storeTxn g)

/-- The destination set AddEdge observes for the source inside the
transaction snapshot: empty when the record is absent, the decoded record
otherwise (unused on other read failures). -/
def readDst (txn : Txn) (f : GoStr) : EdgeMap :=
  match txnGet txn f with
  | .error _ => []
  | .ok v => DeserializeEdgeMap v

/-- One step of a graph operation as recorded by the retry-loop model of
the driver goroutines in src/main.go. -/
inductive GOp where
  | removeEdge : GoStr → GoStr → GOp
  | getEdges : GoStr → GOp
deriving DecidableEq, Repr

/-- The steps of the first commit attempt of the first goroutine in
src/main.go lines 188-196: RemoveEdge then GetEdges inside txn1. -/
def firstAttemptOps : List GOp :=
  [GOp.removeEdge ['a'] ['b'], GOp.getEdges ['a']]

/-- The steps each retry attempt of the first goroutine re-executes, from
src/main.go lines 198-209: a fresh transaction running only RemoveEdge. -/
def retryAttemptOps : List GOp :=
  [GOp.removeEdge ['a'] ['b']]

/-- Structural helper for the retry loop: the fuel argument is 10 - i, an
upper bound on the remaining iterations, so it never runs out before the
loop guard i < 10 fails. -/
def retryFromAux (commit : Nat → Option GErr) :
    Nat → Nat → Option GErr → List (List GOp) × Option GErr
  | 0, _, err => ([], err)
  | fuel + 1, i, err =>
    if err = some GErr.conflict ∧ i < 10 then
      let r := retryFromAux commit fuel (i + 1) (commit i)
      (retryAttemptOps :: r.1, r.2)
    else
      ([], err)

/-- The retry loop of the first goroutine, src/main.go lines 198-209,
parameterised by the outcome of each commit attempt (none for success):
while the current error is a conflict and the counter i is below 10, open
a fresh transaction, re-execute the retry body, commit, and increment i.
Returns the step lists of the retry attempts and the final error. -/
def retryFrom (commit : Nat → Option GErr) (i : Nat) (err : Option GErr) :
    List (List GOp) × Option GErr :=
  retryFromAux commit (10 - i) i err

/-- The retry loop satisfies the loop equation of the source: one guarded
iteration followed by the loop at the incremented counter. -/
theorem retryFrom_step (commit : Nat → Option GErr) (i : Nat)
    (err : Option GErr) :
    retryFrom commit i err =
      if err = some GErr.conflict ∧ i < 10 then
        (retryAttemptOps :: (retryFrom commit (i + 1) (commit i)).1,
          (retryFrom commit (i + 1) (commit i)).2)
      else ([], err) := by
  by_cases hi : i < 10
  · have hfuel : 10 - i = (10 - (i + 1)) + 1 := by omega
    rw [retryFrom, hfuel]
    rfl
  · have hfuel : 10 - i = 0 := by omega
    rw [retryFrom, hfuel]
    have hcond : ¬(err = some GErr.conflict ∧ i < 10) := fun hx => hi hx.2
    simp [retryFromAux, hcond]

/-- The whole commit discipline of the first goroutine, src/main.go lines
188-214: the first attempt runs the full body and commits as attempt 0,
then the retry loop runs with i starting at 1. Returns the step lists of
all attempts and the error left when the loop exits. -/
def goroutineTrace (commit : Nat → Option GErr) : List (List GOp) × Option GErr :=
  let r := retryFrom commit 1 (commit 0)
  (firstAttemptOps :: r.1, r.2)

/-- Folding map insertion of true over a list of keys, the loop at the end
of DeserializeEdgeMap. -/
def foldInsert (segs : List GoStr) (m : EdgeMap) : EdgeMap :=
  segs.foldl (fun m v => mapInsert v true m) m

/-- Canonical edge maps: every value true, no duplicate keys, no key
containing the delimiter. Every map DeserializeEdgeMap produces from a
value serialized out of such a map is of this shape. -/
def Canon (m : EdgeMap) : Prop :=
  (∀ p ∈ m, p.2 = true) ∧ (mapKeys m).Nodup ∧ ∀ p ∈ m, delim ∉ p.1

theorem mapKeys_nil : mapKeys ([] : List (GoStr × α)) = [] := rfl

theorem mapKeys_cons (p : GoStr × α) (m : List (GoStr × α)) :
    mapKeys (p :: m) = p.1 :: mapKeys m := rfl

theorem mapKeys_append (m₁ m₂ : List (GoStr × α)) :
    mapKeys (m₁ ++ m₂) = mapKeys m₁ ++ mapKeys m₂ := by
  simp [mapKeys]

theorem mapLookup_insert_self (k : GoStr) (v : α) (m : List (GoStr × α)) :
    mapLookup k (mapInsert k v m) = some v := by
  induction m with
  | nil => simp [mapInsert, mapLookup]
  | cons p rest ih =>
    by_cases h : p.1 = k
    · simp [mapInsert, h, mapLookup]
    · simp [mapInsert, h, mapLookup, ih]

theorem mapLookup_insert_ne (k j : GoStr) (v : α) (m : List (GoStr × α))
    (h : j ≠ k) : mapLookup j (mapInsert k v m) = mapLookup j m := by
  have hk : ¬(k = j) := fun hh => h hh.symm
  induction m with
  | nil => simp [mapInsert, mapLookup, hk]
  | cons p rest ih =>
    by_cases hp : p.1 = k
    · subst hp
      simp [mapInsert, mapLookup, hk]
    · by_cases hj : p.1 = j
      · simp [mapInsert, hp, mapLookup, hj, h, hk]
      · simp [mapInsert, hp, mapLookup, hj, ih]

theorem mapInsert_lookup_true (t : GoStr) (m : EdgeMap)
    (h : mapLookup t m = some true) : mapInsert t true m = m := by
  induction m with
  | nil => simp [mapLookup] at h
  | cons p rest ih =>
    by_cases hp : p.1 = t
    · have hv : p.2 = true := by simpa [mapLookup, hp] using h
      simp only [mapInsert, if_pos hp]
      rw [← hp, ← hv]
    · simp only [mapLookup, if_neg hp] at h
      simp [mapInsert, hp, ih h]

theorem mapInsert_not_mem (k : GoStr) (v : α) (m : List (GoStr × α))
    (h : k ∉ mapKeys m) : mapInsert k v m = m ++ [(k, v)] := by
  induction m with
  | nil => rfl
  | cons p rest ih =>
    simp only [mapKeys_cons, List.mem_cons, not_or] at h
    have h1 : ¬(p.1 = k) := fun hh => h.1 hh.symm
    simp [mapInsert, h1, ih h.2]

theorem mapLookup_eq_none (k : GoStr) (m : List (GoStr × α))
    (h : k ∉ mapKeys m) : mapLookup k m = none := by
  induction m with
  | nil => simp [mapLookup]
  | cons p rest ih =>
    simp only [mapKeys_cons, List.mem_cons, not_or] at h
    have h1 : ¬(p.1 = k) := fun hh => h.1 hh.symm
    simp [mapLookup, h1, ih h.2]

theorem mapDelete_not_mem (k : GoStr) (m : List (GoStr × α))
    (h : k ∉ mapKeys m) : mapDelete k m = m := by
  induction m with
  | nil => rfl
  | cons p rest ih =>
    simp only [mapKeys_cons, List.mem_cons, not_or] at h
    have h1 : ¬(p.1 = k) := fun hh => h.1 hh.symm
    simp [mapDelete, h1, ih h.2]

theorem foldInsert_lookup_true (l : List GoStr) (m : EdgeMap) (s : GoStr) :
    mapLookup s (foldInsert l m) =
      if s ∈ l then some true else mapLookup s m := by
  induction l generalizing m with
  | nil => simp [foldInsert]
  | cons a rest ih =>
    simp only [foldInsert, List.foldl_cons] at *
    by_cases hs : s ∈ rest
    · simp [ih, hs]
    · by_cases ha : s = a
      · subst ha
        simp [ih, hs, mapLookup_insert_self]
      · simp [ih, hs, ha, mapLookup_insert_ne _ _ _ _ ha]

theorem foldInsert_no_new (l : List GoStr) (m : EdgeMap)
    (h : ∀ s ∈ l, mapLookup s m = some true) : foldInsert l m = m := by
  induction l with
  | nil => rfl
  | cons a rest ih =>
    simp only [foldInsert, List.foldl_cons]
    rw [mapInsert_lookup_true a m (h a (by simp))]
    exact ih (fun s hs => h s (by simp [hs]))

theorem foldInsert_append (l₁ l₂ : List GoStr) (m : EdgeMap) :
    foldInsert (l₁ ++ l₂) m = foldInsert l₂ (foldInsert l₁ m) := by
  simp [foldInsert, List.foldl_append]

theorem foldInsert_fresh (l : List GoStr) (m : EdgeMap)
    (hn : l.Nodup) (hf : ∀ k ∈ l, k ∉ mapKeys m) :
    foldInsert l m = m ++ l.map (fun k => (k, true)) := by
  induction l generalizing m with
  | nil => simp [foldInsert]
  | cons a rest ih =>
    simp only [foldInsert, List.foldl_cons]
    rw [mapInsert_not_mem a true m (hf a (by simp))]
    simp only [List.nodup_cons] at hn
    have hf2 : ∀ k ∈ rest, k ∉ mapKeys (m ++ [(a, true)]) := by
      intro k hk
      rw [mapKeys_append]
      simp only [List.mem_append, not_or]
      refine ⟨hf k (by simp [hk]), ?_⟩
      simp only [mapKeys_cons, mapKeys_nil, List.mem_singleton]
      intro hc
      exact hn.1 (hc ▸ hk)
    have hrec := ih (m ++ [(a, true)]) hn.2 hf2
    simp only [foldInsert] at hrec
    rw [hrec]
    simp

theorem goSplit_ne_nil (s : GoStr) : goSplit s ≠ [] := by
  cases s with
  | nil => simp [goSplit]
  | cons c rest =>
    simp only [goSplit]
    cases goSplit rest with
    | nil => simp
    | cons seg segs =>
      by_cases h : c = delim <;> simp [h]

theorem goSplit_no_delim (s : GoStr) : ∀ seg ∈ goSplit s, delim ∉ seg := by
  induction s with
  | nil =>
    intro seg hseg
    simp [goSplit] at hseg
    simp [hseg]
  | cons c rest ih =>
    intro seg hseg
    simp only [goSplit] at hseg
    cases hr : goSplit rest with
    | nil => exact absurd hr (goSplit_ne_nil rest)
    | cons seg0 segs =>
      rw [hr] at hseg
      by_cases hc : c = delim
      · simp only [if_pos hc, List.mem_cons] at hseg
        rcases hseg with h1 | h1 | h1
        · simp [h1]
        · exact ih seg (by rw [hr]; simp [h1])
        · exact ih seg (by rw [hr]; simp [h1])
      · simp only [if_neg hc, List.mem_cons] at hseg
        rcases hseg with h1 | h1
        · subst h1
          intro hmem
          simp only [List.mem_cons] at hmem
          rcases hmem with h2 | h2
          · exact hc h2.symm
          · exact ih seg0 (by rw [hr]; simp) h2
        · exact ih seg (by rw [hr]; simp [h1])

theorem goSplit_append_delim (s : GoStr) :
    goSplit (s ++ [delim]) = goSplit s ++ [[]] := by
  induction s with
  | nil => simp [goSplit]
  | cons c rest ih =>
    simp only [List.cons_append, goSplit, List.append_eq]
    rw [ih]
    cases hr : goSplit rest with
    | nil => exact absurd hr (goSplit_ne_nil rest)
    | cons seg segs =>
      by_cases hc : c = delim <;> simp [hc]

theorem goSplit_seg_prepend (seg rest : GoStr) (h : delim ∉ seg) :
    goSplit (seg ++ delim :: rest) = seg :: goSplit rest := by
  induction seg with
  | nil =>
    simp only [List.nil_append, goSplit]
    cases hr : goSplit rest with
    | nil => exact absurd hr (goSplit_ne_nil rest)
    | cons seg0 segs => simp
  | cons c cs ih =>
    simp only [List.mem_cons, not_or] at h
    have hrec := ih h.2
    simp only [List.cons_append, goSplit, List.append_eq]
    rw [hrec]
    have hc : ¬(c = delim) := fun hh => h.1 hh.symm
    simp [hc]

/-- The concatenation of delimiter-terminated segments, the normal form of
a serialized canonical map. -/
def joinSegs (l : List GoStr) : GoStr :=
  (l.map (fun k => k ++ [delim])).flatten

theorem goSplit_joinSegs_append (l : List GoStr) (rest : GoStr)
    (h : ∀ k ∈ l, delim ∉ k) :
    goSplit (joinSegs l ++ rest) = l ++ goSplit rest := by
  induction l with
  | nil => simp [joinSegs]
  | cons a as ih =>
    simp only [joinSegs, List.map_cons, List.flatten_cons, List.append_assoc]
    rw [show [delim] ++ ((as.map (fun k => k ++ [delim])).flatten ++ rest) =
      delim :: ((as.map (fun k => k ++ [delim])).flatten ++ rest) from rfl]
    rw [goSplit_seg_prepend a _ (h a (by simp))]
    have hrec := ih (fun k hk => h k (by simp [hk]))
    simp only [joinSegs] at hrec
    rw [hrec]
    simp

theorem trueKeys_cons_true (p : GoStr × Bool) (rest : EdgeMap)
    (hp : p.2 = true) : trueKeys (p :: rest) = p.1 :: trueKeys rest := by
  simp [trueKeys, List.filter_cons, hp]

theorem trueKeys_cons_false (p : GoStr × Bool) (rest : EdgeMap)
    (hp : ¬(p.2 = true)) : trueKeys (p :: rest) = trueKeys rest := by
  simp [trueKeys, List.filter_cons, hp]

theorem joinSegs_cons (a : GoStr) (l : List GoStr) :
    joinSegs (a :: l) = a ++ [delim] ++ joinSegs l := by
  simp [joinSegs]

theorem serialize_foldl_acc (m : EdgeMap) (acc : GoStr) :
    m.foldl (fun acc p => if p.2 then acc ++ p.1 ++ [delim] else acc) acc =
      acc ++ joinSegs (trueKeys m) := by
  induction m generalizing acc with
  | nil => simp [joinSegs, trueKeys]
  | cons p rest ih =>
    simp only [List.foldl_cons]
    by_cases hp : p.2 = true
    · rw [if_pos hp, ih, trueKeys_cons_true p rest hp, joinSegs_cons]
      simp [List.append_assoc]
    · rw [if_neg hp, ih, trueKeys_cons_false p rest hp]

/-- SerializeEdgeMap concatenates exactly the true-valued keys, each
followed by the delimiter. -/
theorem serialize_eq_joinSegs (m : EdgeMap) :
    SerializeEdgeMap m = joinSegs (trueKeys m) := by
  have h := serialize_foldl_acc m []
  simpa [SerializeEdgeMap] using h

/-- The slice adjustment of DeserializeEdgeMap: drop the trailing empty
segment when the last segment is empty. -/
def dropTrail (l : List GoStr) : List GoStr :=
  if l.getLast? = some [] then l.dropLast else l

theorem DeserializeEdgeMap_eq (s : GoStr) :
    DeserializeEdgeMap s = foldInsert (dropTrail (goSplit s)) [] := rfl

theorem dropTrail_subset (l : List GoStr) : ∀ x ∈ dropTrail l, x ∈ l := by
  intro x hx
  unfold dropTrail at hx
  by_cases h : l.getLast? = some ([] : GoStr)
  · rw [if_pos h] at hx
    exact l.dropLast_sublist.subset hx
  · rwa [if_neg h] at hx

theorem mapKeys_insert (k : GoStr) (v : α) (m : List (GoStr × α)) :
    mapKeys (mapInsert k v m) =
      if k ∈ mapKeys m then mapKeys m else mapKeys m ++ [k] := by
  induction m with
  | nil => simp [mapInsert, mapKeys]
  | cons p rest ih =>
    by_cases hp : p.1 = k
    · simp [mapInsert, hp, mapKeys_cons]
    · have hne : ¬(k = p.1) := fun hh => hp hh.symm
      by_cases hk : k ∈ mapKeys rest
      · simp [mapInsert, hp, mapKeys_cons, ih, hk, hne]
      · simp [mapInsert, hp, mapKeys_cons, ih, hk, hne]

theorem mapKeys_insert_nodup (k : GoStr) (v : α) (m : List (GoStr × α))
    (h : (mapKeys m).Nodup) : (mapKeys (mapInsert k v m)).Nodup := by
  rw [mapKeys_insert]
  by_cases hk : k ∈ mapKeys m
  · rwa [if_pos hk]
  · rw [if_neg hk]
    simp [List.nodup_append, h, hk]

theorem mapInsert_forall (k : GoStr) (v : α) (m : List (GoStr × α))
    (P : GoStr × α → Prop) (hm : ∀ p ∈ m, P p) (hkv : P (k, v)) :
    ∀ p ∈ mapInsert k v m, P p := by
  induction m with
  | nil =>
    intro p hp
    simp only [mapInsert, List.mem_singleton] at hp
    exact hp ▸ hkv
  | cons q rest ih =>
    intro p hp
    by_cases hq : q.1 = k
    · simp only [mapInsert, if_pos hq, List.mem_cons] at hp
      rcases hp with hp | hp
      · exact hp ▸ hkv
      · exact hm p (by simp [hp])
    · simp only [mapInsert, if_neg hq, List.mem_cons] at hp
      rcases hp with hp | hp
      · exact hp ▸ hm q (by simp)
      · exact ih (fun r hr => hm r (by simp [hr])) p hp

theorem foldInsert_values_true (l : List GoStr) (m : EdgeMap)
    (h : ∀ p ∈ m, p.2 = true) : ∀ p ∈ foldInsert l m, p.2 = true := by
  induction l generalizing m with
  | nil => exact h
  | cons a rest ih =>
    simp only [foldInsert, List.foldl_cons]
    exact ih (mapInsert a true m) (mapInsert_forall a true m _ h rfl)

theorem foldInsert_nodup (l : List GoStr) (m : EdgeMap)
    (h : (mapKeys m).Nodup) : (mapKeys (foldInsert l m)).Nodup := by
  induction l generalizing m with
  | nil => exact h
  | cons a rest ih =>
    simp only [foldInsert, List.foldl_cons]
    exact ih (mapInsert a true m) (mapKeys_insert_nodup a true m h)

theorem foldInsert_keys_subset (l : List GoStr) (m : EdgeMap) :
    ∀ x ∈ mapKeys (foldInsert l m), x ∈ mapKeys m ∨ x ∈ l := by
  induction l generalizing m with
  | nil => simp [foldInsert]
  | cons a rest ih =>
    intro x hx
    simp only [foldInsert, List.foldl_cons] at hx
    rcases ih (mapInsert a true m) x hx with hmem | hmem
    · rw [mapKeys_insert] at hmem
      by_cases hk : a ∈ mapKeys m
      · rw [if_pos hk] at hmem
        exact Or.inl hmem
      · rw [if_neg hk] at hmem
        simp only [List.mem_append, List.mem_singleton] at hmem
        rcases hmem with hmem | hmem
        · exact Or.inl hmem
        · exact Or.inr (by simp [hmem])
    · exact Or.inr (by simp [hmem])

theorem canon_nil : Canon [] := by
  refine ⟨?_, ?_, ?_⟩ <;> simp [mapKeys]

/-- Every map produced by DeserializeEdgeMap is canonical: all values
true, no duplicate keys, no key containing the delimiter. -/
theorem deser_canon (s : GoStr) : Canon (DeserializeEdgeMap s) := by
  rw [DeserializeEdgeMap_eq]
  refine ⟨?_, ?_, ?_⟩
  · exact foldInsert_values_true _ _ (by simp)
  · exact foldInsert_nodup _ _ (by simp [mapKeys])
  · intro p hp
    have hk : p.1 ∈ mapKeys (foldInsert (dropTrail (goSplit s)) []) := by
      simp only [mapKeys, List.mem_map]
      exact ⟨p, hp, rfl⟩
    rcases foldInsert_keys_subset _ _ p.1 hk with hmem | hmem
    · simp [mapKeys] at hmem
    · exact goSplit_no_delim s p.1 (dropTrail_subset _ p.1 hmem)

theorem canon_trueKeys (m : EdgeMap) (h : ∀ p ∈ m, p.2 = true) :
    trueKeys m = mapKeys m := by
  unfold trueKeys mapKeys
  rw [List.filter_eq_self.mpr (fun p hp => by simp [h p hp])]

theorem canon_eq_map (m : EdgeMap) (h : ∀ p ∈ m, p.2 = true) :
    m = (mapKeys m).map (fun k => (k, true)) := by
  induction m with
  | nil => rfl
  | cons p rest ih =>
    simp only [mapKeys_cons, List.map_cons]
    rw [← ih (fun q hq => h q (by simp [hq]))]
    have : p = (p.1, true) := by
      have := h p (by simp)
      exact Prod.ext rfl this
    exact this ▸ rfl

theorem foldInsert_keys_self (m : EdgeMap) (h : Canon m) :
    foldInsert (mapKeys m) [] = m := by
  rw [foldInsert_fresh (mapKeys m) [] h.2.1 (by simp [mapKeys])]
  rw [List.nil_append]
  exact (canon_eq_map m h.1).symm

theorem joinSegs_append (l₁ l₂ : List GoStr) :
    joinSegs (l₁ ++ l₂) = joinSegs l₁ ++ joinSegs l₂ := by
  simp [joinSegs]

theorem trueKeys_append (m₁ m₂ : EdgeMap) :
    trueKeys (m₁ ++ m₂) = trueKeys m₁ ++ trueKeys m₂ := by
  simp [trueKeys]

theorem canon_keys_no_delim (m : EdgeMap) (h : Canon m) :
    ∀ k ∈ mapKeys m, delim ∉ k := by
  intro k hk
  simp only [mapKeys, List.mem_map] at hk
  rcases hk with ⟨p, hp, hpk⟩
  exact hpk ▸ h.2.2 p hp

/-- Decoding the encoding of a canonical map gives the map back. -/
theorem roundtrip_canon (m : EdgeMap) (h : Canon m) :
    DeserializeEdgeMap (SerializeEdgeMap m) = m := by
  rw [serialize_eq_joinSegs, canon_trueKeys m h.1, DeserializeEdgeMap_eq]
  have hsplit : goSplit (joinSegs (mapKeys m)) = mapKeys m ++ [[]] := by
    have hg := goSplit_joinSegs_append (mapKeys m) [] (canon_keys_no_delim m h)
    simpa [goSplit] using hg
  rw [hsplit]
  have hdrop : dropTrail (mapKeys m ++ [[]]) = mapKeys m := by
    simp [dropTrail]
  rw [hdrop]
  exact foldInsert_keys_self m h

/-- Decoding the encoding of a canonical map with one fresh pair appended
folds the split segments of the new key into the map. -/
theorem deser_ser_snoc (m : EdgeMap) (t : GoStr) (h : Canon m) :
    DeserializeEdgeMap (SerializeEdgeMap (m ++ [(t, true)])) =
      foldInsert (goSplit t) m := by
  rw [serialize_eq_joinSegs, trueKeys_append, canon_trueKeys m h.1]
  have ht : trueKeys [(t, true)] = [t] := by simp [trueKeys]
  rw [ht, joinSegs_append]
  have hj : joinSegs [t] = t ++ [delim] := by simp [joinSegs]
  rw [hj, DeserializeEdgeMap_eq]
  rw [goSplit_joinSegs_append (mapKeys m) (t ++ [delim]) (canon_keys_no_delim m h)]
  rw [goSplit_append_delim, ← List.append_assoc]
  have hdrop : dropTrail ((mapKeys m ++ goSplit t) ++ [[]]) =
      mapKeys m ++ goSplit t := by
    simp [dropTrail]
  rw [hdrop, foldInsert_append, foldInsert_keys_self m h]

theorem mapLookup_none_iff (k : GoStr) (m : List (GoStr × α)) :
    mapLookup k m = none ↔ k ∉ mapKeys m := by
  induction m with
  | nil => simp [mapLookup, mapKeys]
  | cons p rest ih =>
    by_cases hp : p.1 = k
    · simp [mapLookup, hp, mapKeys_cons]
    · have hne : ¬(k = p.1) := fun hh => hp hh.symm
      simp [mapLookup, hp, mapKeys_cons, ih, hne]

theorem canon_lookup (m : EdgeMap) (h : ∀ p ∈ m, p.2 = true) (k : GoStr) :
    mapLookup k m = none ∨ mapLookup k m = some true := by
  induction m with
  | nil => simp [mapLookup]
  | cons p rest ih =>
    by_cases hp : p.1 = k
    · right
      simp [mapLookup, hp, h p (by simp)]
    · simp only [mapLookup, if_neg hp]
      exact ih (fun q hq => h q (by simp [hq]))

theorem lookup_true_mem_trueKeys (m : EdgeMap) (k : GoStr)
    (h : mapLookup k m = some true) : k ∈ trueKeys m := by
  induction m with
  | nil => simp [mapLookup] at h
  | cons p rest ih =>
    by_cases hp : p.1 = k
    · have hv : p.2 = true := by simpa [mapLookup, hp] using h
      simp [trueKeys, List.filter_cons, hv, hp]
    · simp only [mapLookup, if_neg hp] at h
      by_cases hv : p.2 = true
      · simp only [trueKeys, List.filter_cons, hv, if_pos, List.map_cons]
        simp only [trueKeys] at ih
        simp [ih h]
      · simp only [trueKeys, List.filter_cons] at *
        simp only [hv] at *
        simpa using ih h

theorem foldInsert_canon (l : List GoStr) (m : EdgeMap) (hm : Canon m)
    (hl : ∀ s ∈ l, delim ∉ s) : Canon (foldInsert l m) := by
  refine ⟨foldInsert_values_true l m hm.1, foldInsert_nodup l m hm.2.1, ?_⟩
  intro p hp
  have hk : p.1 ∈ mapKeys (foldInsert l m) := by
    simp only [mapKeys, List.mem_map]
    exact ⟨p, hp, rfl⟩
  rcases foldInsert_keys_subset l m p.1 hk with hmem | hmem
  · exact canon_keys_no_delim m hm p.1 hmem
  · exact hl p.1 hmem

/-- Decoding the re-encoding after inserting the same destination twice is
the same as after inserting it once, for a canonical starting map. -/
theorem addStep_idem (d : EdgeMap) (t : GoStr) (hc : Canon d) :
    DeserializeEdgeMap (SerializeEdgeMap (mapInsert t true
      (DeserializeEdgeMap (SerializeEdgeMap (mapInsert t true d))))) =
      DeserializeEdgeMap (SerializeEdgeMap (mapInsert t true d)) := by
  rcases canon_lookup d hc.1 t with h0 | h0
  · have hmem : t ∉ mapKeys d := (mapLookup_none_iff t d).mp h0
    rw [mapInsert_not_mem t true d hmem, deser_ser_snoc d t hc]
    have hm1c : Canon (foldInsert (goSplit t) d) :=
      foldInsert_canon (goSplit t) d hc (goSplit_no_delim t)
    have hseg : ∀ s ∈ goSplit t,
        mapLookup s (foldInsert (goSplit t) d) = some true := by
      intro s hs
      rw [foldInsert_lookup_true]
      simp [hs]
    rcases canon_lookup (foldInsert (goSplit t) d) hm1c.1 t with h1 | h1
    · have hmem1 : t ∉ mapKeys (foldInsert (goSplit t) d) :=
        (mapLookup_none_iff t _).mp h1
      rw [mapInsert_not_mem t true _ hmem1,
        deser_ser_snoc (foldInsert (goSplit t) d) t hm1c]
      exact foldInsert_no_new _ _ hseg
    · rw [mapInsert_lookup_true t _ h1,
        roundtrip_canon (foldInsert (goSplit t) d) hm1c]
  · rw [mapInsert_lookup_true t d h0, roundtrip_canon d hc,
      mapInsert_lookup_true t d h0, roundtrip_canon d hc]

theorem mapDelete_sublist (k : GoStr) (m : List (GoStr × α)) :
    (mapDelete k m).Sublist m := by
  induction m with
  | nil => simp [mapDelete]
  | cons p rest ih =>
    by_cases hp : p.1 = k
    · simp only [mapDelete, if_pos hp]
      exact ih.cons p
    · simp only [mapDelete, if_neg hp]
      exact ih.cons₂ p

theorem mapKeys_mapDelete_sublist (k : GoStr) (m : List (GoStr × α)) :
    (mapKeys (mapDelete k m)).Sublist (mapKeys m) := by
  unfold mapKeys
  exact (mapDelete_sublist k m).map (fun p => p.1)

theorem mapDelete_canon (k : GoStr) (m : EdgeMap) (h : Canon m) :
    Canon (mapDelete k m) := by
  refine ⟨?_, ?_, ?_⟩
  · exact fun p hp => h.1 p ((mapDelete_sublist k m).subset hp)
  · exact (mapKeys_mapDelete_sublist k m).nodup h.2.1
  · exact fun p hp => h.2.2 p ((mapDelete_sublist k m).subset hp)

theorem mapDelete_insert_self (k : GoStr) (v : α) (m : List (GoStr × α)) :
    mapDelete k (mapInsert k v m) = mapDelete k m := by
  induction m with
  | nil => simp [mapInsert, mapDelete]
  | cons p rest ih =>
    by_cases hp : p.1 = k
    · simp [mapInsert, hp, mapDelete]
    · simp [mapInsert, hp, mapDelete, ih]

theorem readDst_canon (txn : Txn) (f : GoStr) : Canon (readDst txn f) := by
  unfold readDst
  cases txnGet txn f with
  | error e => exact canon_nil
  | ok v => exact deser_canon v

theorem trueKeys_insert_canon (d : EdgeMap) (t : GoStr) (hc : Canon d)
    (k : GoStr) :
    k ∈ trueKeys (mapInsert t true d) ↔ k ∈ trueKeys d ∨ k = t := by
  rcases canon_lookup d hc.1 t with h0 | h0
  · rw [mapInsert_not_mem t true d ((mapLookup_none_iff t d).mp h0),
      trueKeys_append]
    simp [trueKeys]
  · rw [mapInsert_lookup_true t d h0]
    constructor
    · exact Or.inl
    · rintro (hk | hk)
      · exact hk
      · exact hk ▸ lookup_true_mem_trueKeys d t h0

theorem trueKeys_insert_toFinset (d : EdgeMap) (t : GoStr) (hc : Canon d) :
    (trueKeys (mapInsert t true d)).toFinset =
      insert t (trueKeys d).toFinset := by
  ext k
  simp only [List.mem_toFinset, Finset.mem_insert]
  rw [trueKeys_insert_canon d t hc k]
  tauto

theorem retryFrom_length_le (commit : Nat → Option GErr) (i : Nat)
    (err : Option GErr) : (retryFrom commit i err).1.length ≤ 10 - i := by
  rw [retryFrom]
  generalize hfuel : 10 - i = fuel
  induction fuel generalizing i err with
  | zero => simp [retryFromAux]
  | succ n ih =>
    simp only [retryFromAux]
    by_cases hcond : err = some GErr.conflict ∧ i < 10
    · simp only [if_pos hcond, List.length_cons]
      have := ih (i + 1) (commit i) (by omega)
      omega
    · simp [if_neg hcond]

theorem retryFrom_replicate (commit : Nat → Option GErr) (i : Nat)
    (err : Option GErr) :
    (retryFrom commit i err).1 =
      List.replicate (retryFrom commit i err).1.length retryAttemptOps := by
  rw [retryFrom]
  generalize hfuel : 10 - i = fuel
  clear hfuel
  induction fuel generalizing i err with
  | zero => simp [retryFromAux]
  | succ n ih =>
    simp only [retryFromAux]
    by_cases hcond : err = some GErr.conflict ∧ i < 10
    · simp only [if_pos hcond, List.length_cons, List.replicate_succ,
        List.cons.injEq, true_and]
      exact ih (i + 1) (commit i)
    · simp [if_neg hcond]

theorem retryFromAux_succ (commit : Nat → Option GErr) (n i : Nat)
    (err : Option GErr) :
    retryFromAux commit (n + 1) i err =
      if err = some GErr.conflict ∧ i < 10 then
        (retryAttemptOps :: (retryFromAux commit n (i + 1) (commit i)).1,
          (retryFromAux commit n (i + 1) (commit i)).2)
      else ([], err) := rfl

theorem retryFrom_conflict_exhaust (commit : Nat → Option GErr)
    (hall : ∀ n, commit n = some GErr.conflict) (i : Nat) (hi : i ≤ 10) :
    (retryFrom commit i (some GErr.conflict)).2 = some GErr.conflict ∧
      (retryFrom commit i (some GErr.conflict)).1.length = 10 - i := by
  rw [retryFrom]
  generalize hfuel : 10 - i = fuel
  induction fuel generalizing i with
  | zero =>
    simp [retryFromAux]
  | succ n ih =>
    have hlt : i < 10 := by omega
    have hcond : some GErr.conflict = some GErr.conflict ∧ i < 10 :=
      ⟨rfl, hlt⟩
    rw [retryFromAux_succ, if_pos hcond, hall i]
    have hrec := ih (i + 1) (by omega) (by omega)
    refine ⟨hrec.1, ?_⟩
    simp [hrec.2]

theorem storeTxn_get (g : Store) (f : GoStr) :
    txnGet (storeTxn g) f =
      match mapLookup f g with
      | some v => .ok v
      | none => .error GErr.keyNotFound := rfl

theorem getEdgesStore_eq (g : Store) (f : GoStr) :
    getEdgesStore g f =
      match mapLookup f g with
      | some v => .ok (DeserializeEdgeMap v)
      | none => .error GErr.keyNotFound := by
  cases h : mapLookup f g with
  | some v => simp [getEdgesStore, getEdgesT, storeTxn_get, h]
  | none => simp [getEdgesStore, getEdgesT, storeTxn_get, h]

theorem commitTxn_single (g : Store) (f w : GoStr) :
    commitTxn g (txnSet (storeTxn g) f w) = mapInsert f w g := rfl

theorem addEdgeStore_none (g : Store) (f t : GoStr)
    (h : mapLookup f g = none) :
    addEdgeStore g f t =
      .ok (mapInsert f (SerializeEdgeMap (mapInsert t true [])) g) := by
  have hget : txnGet (storeTxn g) f = .error GErr.keyNotFound := by
    rw [storeTxn_get, h]
  simp [addEdgeStore, addEdgeT, hget, commitTxn_single]

theorem addEdgeStore_some (g : Store) (f t : GoStr) (v : GoStr)
    (h : mapLookup f g = some v) :
    addEdgeStore g f t =
      .ok (mapInsert f
        (SerializeEdgeMap (mapInsert t true (DeserializeEdgeMap v))) g) := by
  have hget : txnGet (storeTxn g) f = .ok v := by
    rw [storeTxn_get, h]
  simp [addEdgeStore, addEdgeT, hget, commitTxn_single]

theorem removeEdgeStore_none (g : Store) (f t : GoStr)
    (h : mapLookup f g = none) :
    removeEdgeStore g f t = .error GErr.keyNotFound := by
  have hget : txnGet (storeTxn g) f = .error GErr.keyNotFound := by
    rw [storeTxn_get, h]
  simp [removeEdgeStore, removeEdgeT, hget]

theorem removeEdgeStore_some (g : Store) (f t : GoStr) (v : GoStr)
    (h : mapLookup f g = some v) :
    removeEdgeStore g f t =
      .ok (mapInsert f
        (SerializeEdgeMap (mapDelete t (DeserializeEdgeMap v))) g) := by
  have hget : txnGet (storeTxn g) f = .ok v := by
    rw [storeTxn_get, h]
  simp [removeEdgeStore, removeEdgeT, hget, commitTxn_single]

theorem mapLookup_insert_isSome (k j : GoStr) (w : α)
    (m : List (GoStr × α)) (h : (mapLookup k m).isSome) :
    (mapLookup k (mapInsert j w m)).isSome := by
  by_cases hkj : k = j
  · subst hkj
    rw [mapLookup_insert_self]
    rfl
  · rwa [mapLookup_insert_ne j k w m hkj]

/-- C1: Codec round-trip: for every finite set of identifiers, none
containing the delimiter byte, deserializing the serialization yields the
set back; moreover the empty set serializes to the empty byte sequence and
the empty byte sequence deserializes to the empty set. Sets are embedded
as edge maps sending each member to true. -/
theorem c1_codec_roundtrip (l : List GoStr) (hnd : l.Nodup)
    (hdf : ∀ x ∈ l, delim ∉ x) :
    DeserializeEdgeMap (SerializeEdgeMap (l.map (fun k => (k, true)))) =
      l.map (fun k => (k, true)) ∧
    SerializeEdgeMap [] = [] ∧
    DeserializeEdgeMap [] = [] := by
  refine ⟨?_, rfl, rfl⟩
  apply roundtrip_canon
  refine ⟨?_, ?_, ?_⟩
  · intro p hp
    simp only [List.mem_map] at hp
    rcases hp with ⟨k, _, hpk⟩
    rw [← hpk]
  · unfold mapKeys
    rw [List.map_map]
    have hcomp : ((fun (p : GoStr × Bool) => p.1) ∘ fun k => (k, true)) =
        id := rfl
    rw [hcomp, List.map_id]
    exact hnd
  · intro p hp
    simp only [List.mem_map] at hp
    rcases hp with ⟨k, hk, hpk⟩
    rw [← hpk]
    exact hdf k hk

theorem c1_codec_roundtrip_witness :
    DeserializeEdgeMap (SerializeEdgeMap
      ([['b'], ['c']].map (fun k => (k, true)))) =
      [['b'], ['c']].map (fun k => (k, true)) ∧
    SerializeEdgeMap [] = [] ∧
    DeserializeEdgeMap [] = [] :=
  c1_codec_roundtrip [['b'], ['c']] (by decide) (by decide)

/-- C2: on a source node with no adjacency record, RemoveEdge and GetEdges
fail with the key-not-found error, while AddEdge succeeds and proceeds
from the empty destination set. -/
theorem c2_absent_record (g : Store) (f t : GoStr)
    (h : mapLookup f g = none) :
    removeEdgeStore g f t = .error GErr.keyNotFound ∧
    getEdgesStore g f = .error GErr.keyNotFound ∧
    addEdgeStore g f t =
      .ok (mapInsert f (SerializeEdgeMap (mapInsert t true [])) g) :=
  ⟨removeEdgeStore_none g f t h,
    by rw [getEdgesStore_eq, h],
    addEdgeStore_none g f t h⟩

theorem c2_absent_record_witness :
    removeEdgeStore [] ['z'] ['y'] = .error GErr.keyNotFound ∧
    getEdgesStore [] ['z'] = .error GErr.keyNotFound ∧
    addEdgeStore [] ['z'] ['y'] =
      .ok (mapInsert ['z'] (SerializeEdgeMap (mapInsert ['y'] true [])) []) :=
  c2_absent_record [] ['z'] ['y'] rfl

/-- C8: when the read of the source record fails with any error other than
key-not-found, AddEdge returns that error and stages no write: the
transaction, its write set included, is returned unchanged. -/
theorem c8_read_failure (f t : GoStr) (txn : Txn) (e : GErr)
    (h1 : txnGet txn f = .error e) (h2 : e ≠ GErr.keyNotFound) :
    addEdgeT f t txn = (txn, some e) ∧
    (addEdgeT f t txn).1.writes = txn.writes := by
  cases e with
  | keyNotFound => exact absurd rfl h2
  | conflict => refine ⟨?_, ?_⟩ <;> simp [addEdgeT, h1]
  | engineFailure n => refine ⟨?_, ?_⟩ <;> simp [addEdgeT, h1]

/-- A transaction whose snapshot always fails with an engine failure. -/
def failTxn : Txn :=
  { snapshot := fun _ => .error (GErr.engineFailure 7), writes := [] }

theorem c8_read_failure_witness :
    addEdgeT ['a'] ['b'] failTxn = (failTxn, some (GErr.engineFailure 7)) ∧
    (addEdgeT ['a'] ['b'] failTxn).1.writes = failTxn.writes :=
  c8_read_failure ['a'] ['b'] failTxn (GErr.engineFailure 7) rfl (by decide)

/-- C9: every successful RemoveEdge stages exactly one write, under the
source key, unconditionally; when the destination is not a member of the
decoded set the staged value encodes the very set that was read, and the
write set still carries an entry for the source key. -/
theorem c9_remove_always_writes (f t : GoStr) (txn : Txn) (v : GoStr)
    (h : txnGet txn f = .ok v)
    (f2 t2 : GoStr) (txn2 : Txn) (v2 : GoStr)
    (h2 : txnGet txn2 f2 = .ok v2)
    (hno : t2 ∉ trueKeys (DeserializeEdgeMap v2)) :
    removeEdgeT f t txn =
      (txnSet txn f (SerializeEdgeMap (mapDelete t (DeserializeEdgeMap v))),
        none) ∧
    mapLookup f (removeEdgeT f t txn).1.writes =
      some (SerializeEdgeMap (mapDelete t (DeserializeEdgeMap v))) ∧
    mapDelete f (removeEdgeT f t txn).1.writes = mapDelete f txn.writes ∧
    removeEdgeT f2 t2 txn2 =
      (txnSet txn2 f2 (SerializeEdgeMap (DeserializeEdgeMap v2)), none) ∧
    DeserializeEdgeMap (SerializeEdgeMap (DeserializeEdgeMap v2)) =
      DeserializeEdgeMap v2 := by
  have he : removeEdgeT f t txn =
      (txnSet txn f (SerializeEdgeMap (mapDelete t (DeserializeEdgeMap v))),
        none) := by
    simp [removeEdgeT, h]
  have hkeys : t2 ∉ mapKeys (DeserializeEdgeMap v2) := by
    rw [← canon_trueKeys _ (deser_canon v2).1]
    exact hno
  refine ⟨he, ?_, ?_, ?_, ?_⟩
  · rw [he]
    exact mapLookup_insert_self _ _ _
  · rw [he]
    exact mapDelete_insert_self _ _ _
  · simp [removeEdgeT, h2, mapDelete_not_mem t2 _ hkeys]
  · exact roundtrip_canon _ (deser_canon v2)

theorem c9_remove_always_writes_witness :
    removeEdgeT ['a'] ['b'] (storeTxn [(['a'], ['b', '|'])]) =
      (txnSet (storeTxn [(['a'], ['b', '|'])]) ['a']
        (SerializeEdgeMap (mapDelete ['b']
          (DeserializeEdgeMap ['b', '|']))), none) ∧
    mapLookup ['a'] (removeEdgeT ['a'] ['b']
        (storeTxn [(['a'], ['b', '|'])])).1.writes =
      some (SerializeEdgeMap (mapDelete ['b']
        (DeserializeEdgeMap ['b', '|']))) ∧
    mapDelete ['a'] (removeEdgeT ['a'] ['b']
        (storeTxn [(['a'], ['b', '|'])])).1.writes =
      mapDelete ['a'] (storeTxn [(['a'], ['b', '|'])]).writes ∧
    removeEdgeT ['a'] ['z'] (storeTxn [(['a'], ['b', '|'])]) =
      (txnSet (storeTxn [(['a'], ['b', '|'])]) ['a']
        (SerializeEdgeMap (DeserializeEdgeMap ['b', '|'])), none) ∧
    DeserializeEdgeMap (SerializeEdgeMap (DeserializeEdgeMap ['b', '|'])) =
      DeserializeEdgeMap ['b', '|'] :=
  c9_remove_always_writes ['a'] ['b'] (storeTxn [(['a'], ['b', '|'])])
    ['b', '|'] rfl ['a'] ['z'] (storeTxn [(['a'], ['b', '|'])])
    ['b', '|'] rfl (by decide)

/-- C10: every map DeserializeEdgeMap produces, and hence every map
GetEdges returns, sends each of its keys to true; SerializeEdgeMap skips
false entries, so a false entry is never encoded and the round trip of a
map equals the round trip of its true-valued part. -/
theorem c10_false_never_encoded (s : GoStr) (p : GoStr × Bool)
    (hp : p ∈ DeserializeEdgeMap s) (g : Store) (f : GoStr) (m : EdgeMap)
    (hm : getEdgesStore g f = .ok m) (q : GoStr × Bool) (hq : q ∈ m)
    (m2 : EdgeMap) :
    p.2 = true ∧ q.2 = true ∧
    SerializeEdgeMap m2 = SerializeEdgeMap (m2.filter (fun r => r.2)) ∧
    DeserializeEdgeMap (SerializeEdgeMap m2) =
      DeserializeEdgeMap (SerializeEdgeMap (m2.filter (fun r => r.2))) := by
  have hser : SerializeEdgeMap m2 =
      SerializeEdgeMap (m2.filter (fun r => r.2)) := by
    rw [serialize_eq_joinSegs, serialize_eq_joinSegs]
    have hff : (m2.filter (fun r => r.2)).filter (fun r => r.2) =
        m2.filter (fun r => r.2) := by
      rw [List.filter_filter]
      simp
    unfold trueKeys
    rw [hff]
  refine ⟨(deser_canon s).1 p hp, ?_, hser, by rw [hser]⟩
  rw [getEdgesStore_eq] at hm
  cases hg : mapLookup f g with
  | none =>
    rw [hg] at hm
    exact absurd hm (by simp)
  | some v =>
    rw [hg] at hm
    simp only [Except.ok.injEq] at hm
    exact (deser_canon v).1 q (hm ▸ hq)

theorem c10_false_never_encoded_witness :
    ((['a'], true) : GoStr × Bool).2 = true ∧
    ((['b'], true) : GoStr × Bool).2 = true ∧
    SerializeEdgeMap [(['a'], true), (['c'], false)] =
      SerializeEdgeMap
        ([(['a'], true), (['c'], false)].filter (fun r => r.2)) ∧
    DeserializeEdgeMap (SerializeEdgeMap [(['a'], true), (['c'], false)]) =
      DeserializeEdgeMap (SerializeEdgeMap
        ([(['a'], true), (['c'], false)].filter (fun r => r.2))) :=
  c10_false_never_encoded ['a', '|'] (['a'], true) (by decide)
    [(['a'], ['b', '|'])] ['a'] [(['b'], true)] rfl (['b'], true)
    (by decide) [(['a'], true), (['c'], false)]

/-- C3: every successful AddEdge stages exactly one write, under the
source key: the write set gains that single entry and is otherwise
unchanged, and the staged value is the encoding of a map whose true-key
set is exactly the union of the snapshot-read destination set (empty when
no record existed) and the singleton of the new destination. -/
theorem c3_addedge_staging (f t : GoStr) (txn txn2 : Txn)
    (h : addEdgeT f t txn = (txn2, none)) :
    txn2.writes = mapInsert f
      (SerializeEdgeMap (mapInsert t true (readDst txn f))) txn.writes ∧
    mapLookup f txn2.writes =
      some (SerializeEdgeMap (mapInsert t true (readDst txn f))) ∧
    mapDelete f txn2.writes = mapDelete f txn.writes ∧
    (trueKeys (mapInsert t true (readDst txn f))).toFinset =
      insert t (trueKeys (readDst txn f)).toFinset := by
  have hw : txn2.writes = mapInsert f
      (SerializeEdgeMap (mapInsert t true (readDst txn f))) txn.writes := by
    cases hg : txnGet txn f with
    | error e =>
      cases e with
      | keyNotFound =>
        have hd : readDst txn f = [] := by
          unfold readDst
          rw [hg]
        rw [hd]
        simp only [addEdgeT, hg] at h
        have h1 := congrArg Prod.fst h
        simp only at h1
        rw [← h1]
        rfl
      | conflict =>
        simp only [addEdgeT, hg] at h
        simp at h
      | engineFailure n =>
        simp only [addEdgeT, hg] at h
        simp at h
    | ok v =>
      have hd : readDst txn f = DeserializeEdgeMap v := by
        unfold readDst
        rw [hg]
      rw [hd]
      simp only [addEdgeT, hg] at h
      have h1 := congrArg Prod.fst h
      simp only at h1
      rw [← h1]
      rfl
  refine ⟨hw, ?_, ?_, ?_⟩
  · rw [hw]
    exact mapLookup_insert_self _ _ _
  · rw [hw]
    exact mapDelete_insert_self _ _ _
  · exact trueKeys_insert_toFinset _ t (readDst_canon txn f)

theorem c3_addedge_staging_witness :
    (txnSet (storeTxn []) ['a']
        (SerializeEdgeMap (mapInsert ['b'] true []))).writes =
      mapInsert ['a'] (SerializeEdgeMap (mapInsert ['b'] true
        (readDst (storeTxn []) ['a']))) (storeTxn []).writes ∧
    mapLookup ['a'] (txnSet (storeTxn []) ['a']
        (SerializeEdgeMap (mapInsert ['b'] true []))).writes =
      some (SerializeEdgeMap (mapInsert ['b'] true
        (readDst (storeTxn []) ['a']))) ∧
    mapDelete ['a'] (txnSet (storeTxn []) ['a']
        (SerializeEdgeMap (mapInsert ['b'] true []))).writes =
      mapDelete ['a'] (storeTxn []).writes ∧
    (trueKeys (mapInsert ['b'] true
        (readDst (storeTxn []) ['a']))).toFinset =
      insert ['b'] (trueKeys (readDst (storeTxn []) ['a'])).toFinset :=
  c3_addedge_staging ['a'] ['b'] (storeTxn [])
    (txnSet (storeTxn []) ['a']
      (SerializeEdgeMap (mapInsert ['b'] true []))) rfl

/-- C5: AddEdge is idempotent: adding the same edge twice in sequence,
each call committing its own transaction, leaves the same neighbor map
as returned by GetEdges as adding it once. -/
theorem c5_add_idempotent (g : Store) (f t : GoStr) (g1 g2 : Store)
    (h1 : addEdgeStore g f t = .ok g1)
    (h2 : addEdgeStore g1 f t = .ok g2) :
    getEdgesStore g2 f = getEdgesStore g1 f := by
  have hshape : ∃ d : EdgeMap, Canon d ∧
      g1 = mapInsert f (SerializeEdgeMap (mapInsert t true d)) g := by
    cases hv : mapLookup f g with
    | none =>
      rw [addEdgeStore_none g f t hv] at h1
      exact ⟨[], canon_nil, (Except.ok.inj h1).symm⟩
    | some v =>
      rw [addEdgeStore_some g f t v hv] at h1
      exact ⟨DeserializeEdgeMap v, deser_canon v, (Except.ok.inj h1).symm⟩
  rcases hshape with ⟨d, hd, hg1⟩
  have hlook1 : mapLookup f g1 =
      some (SerializeEdgeMap (mapInsert t true d)) := by
    rw [hg1]
    exact mapLookup_insert_self _ _ _
  rw [addEdgeStore_some g1 f t _ hlook1] at h2
  have hg2 := (Except.ok.inj h2).symm
  rw [getEdgesStore_eq, getEdgesStore_eq, hg2, mapLookup_insert_self, hlook1]
  exact congrArg Except.ok (addStep_idem d t hd)

theorem c5_add_idempotent_witness :
    getEdgesStore [(['a'], ['b', '|'])] ['a'] =
      getEdgesStore [(['a'], ['b', '|'])] ['a'] :=
  c5_add_idempotent [] ['a'] ['b'] [(['a'], ['b', '|'])]
    [(['a'], ['b', '|'])] rfl rfl

/-- C6: removing an identifier that is not a member of an existing
destination set succeeds and leaves the set returned by GetEdges
unchanged. -/
theorem c6_remove_absent_member (g : Store) (f t : GoStr) (v : GoStr)
    (hv : mapLookup f g = some v)
    (hno : t ∉ trueKeys (DeserializeEdgeMap v)) :
    removeEdgeStore g f t =
      .ok (mapInsert f (SerializeEdgeMap (DeserializeEdgeMap v)) g) ∧
    getEdgesStore
        (mapInsert f (SerializeEdgeMap (DeserializeEdgeMap v)) g) f =
      getEdgesStore g f := by
  have hkeys : t ∉ mapKeys (DeserializeEdgeMap v) := by
    rw [← canon_trueKeys _ (deser_canon v).1]
    exact hno
  have hdel : mapDelete t (DeserializeEdgeMap v) = DeserializeEdgeMap v :=
    mapDelete_not_mem t _ hkeys
  refine ⟨?_, ?_⟩
  · rw [removeEdgeStore_some g f t v hv, hdel]
  · rw [getEdgesStore_eq, getEdgesStore_eq, mapLookup_insert_self, hv]
    exact congrArg Except.ok (roundtrip_canon _ (deser_canon v))

theorem c6_remove_absent_member_witness :
    removeEdgeStore [(['a'], ['b', '|'])] ['a'] ['x'] =
      .ok (mapInsert ['a']
        (SerializeEdgeMap (DeserializeEdgeMap ['b', '|']))
        [(['a'], ['b', '|'])]) ∧
    getEdgesStore (mapInsert ['a']
        (SerializeEdgeMap (DeserializeEdgeMap ['b', '|']))
        [(['a'], ['b', '|'])]) ['a'] =
      getEdgesStore [(['a'], ['b', '|'])] ['a'] :=
  c6_remove_absent_member [(['a'], ['b', '|'])] ['a'] ['x'] ['b', '|']
    rfl (by decide)

/-- C7: no operation deletes an adjacency record: a record present before
a successful AddEdge or RemoveEdge is present after it; and removing the
only member of a destination set leaves a record encoding the empty set,
on which GetEdges succeeds with the empty map. -/
theorem c7_records_persist (g ga gr g2 gr2 : Store)
    (f t k f2 t2 : GoStr) (v2 : GoStr)
    (hadd : addEdgeStore g f t = .ok ga)
    (hrem : removeEdgeStore g f t = .ok gr)
    (hk : (mapLookup k g).isSome)
    (hv2 : mapLookup f2 g2 = some v2)
    (hlast : DeserializeEdgeMap v2 = [(t2, true)])
    (hrem2 : removeEdgeStore g2 f2 t2 = .ok gr2) :
    (mapLookup k ga).isSome ∧ (mapLookup k gr).isSome ∧
    mapLookup f2 gr2 = some (SerializeEdgeMap []) ∧
    getEdgesStore gr2 f2 = .ok [] := by
  have hka : (mapLookup k ga).isSome := by
    cases hv : mapLookup f g with
    | none =>
      rw [addEdgeStore_none g f t hv] at hadd
      rw [← Except.ok.inj hadd]
      exact mapLookup_insert_isSome k f _ g hk
    | some v =>
      rw [addEdgeStore_some g f t v hv] at hadd
      rw [← Except.ok.inj hadd]
      exact mapLookup_insert_isSome k f _ g hk
  have hkr : (mapLookup k gr).isSome := by
    cases hv : mapLookup f g with
    | none =>
      rw [removeEdgeStore_none g f t hv] at hrem
      exact absurd hrem (by simp)
    | some v =>
      rw [removeEdgeStore_some g f t v hv] at hrem
      rw [← Except.ok.inj hrem]
      exact mapLookup_insert_isSome k f _ g hk
  have hempty : mapDelete t2 (DeserializeEdgeMap v2) = [] := by
    rw [hlast]
    simp [mapDelete]
  rw [removeEdgeStore_some g2 f2 t2 v2 hv2, hempty] at hrem2
  have hgr2 := (Except.ok.inj hrem2).symm
  refine ⟨hka, hkr, ?_, ?_⟩
  · rw [hgr2]
    exact mapLookup_insert_self _ _ _
  · rw [getEdgesStore_eq, hgr2, mapLookup_insert_self]
    rfl

theorem c7_records_persist_witness :
    (mapLookup ['a'] [(['a'], ['b', '|'])]).isSome ∧
    (mapLookup ['a'] [(['a'], ([] : GoStr))]).isSome ∧
    mapLookup ['c'] [(['c'], ([] : GoStr))] = some (SerializeEdgeMap []) ∧
    getEdgesStore [(['c'], ([] : GoStr))] ['c'] = .ok [] :=
  c7_records_persist [(['a'], ['b', '|'])] [(['a'], ['b', '|'])]
    [(['a'], ([] : GoStr))] [(['c'], ['d', '|'])] [(['c'], ([] : GoStr))]
    ['a'] ['b'] ['a'] ['c'] ['d'] ['d', '|']
    rfl rfl rfl rfl (by decide) rfl

/-- C4 counterexample: under commits that always conflict, the second
attempt of the first goroutine executes only the RemoveEdge step; the
GetEdges step of the first attempt is a step of the logical operation
that no retry re-executes, so the retry does not re-execute every step
of the full logical operation. -/
theorem c4_retry_counterexample :
    (goroutineTrace (fun _ => some GErr.conflict)).1[0]? =
      some firstAttemptOps ∧
    (goroutineTrace (fun _ => some GErr.conflict)).1[1]? =
      some retryAttemptOps ∧
    GOp.getEdges ['a'] ∈ firstAttemptOps ∧
    GOp.getEdges ['a'] ∉ retryAttemptOps ∧
    (goroutineTrace (fun _ => some GErr.conflict)).1[1]? ≠
      (goroutineTrace (fun _ => some GErr.conflict)).1[0]? := by
  refine ⟨rfl, rfl, by decide, by decide, by decide⟩

/-- C4 amended: on conflict the caller opens a brand-new transaction and
re-executes the RemoveEdge mutation against fresh reads (every attempt
after the first runs exactly the retry body, not the read-only GetEdges
step of the first attempt); commit attempts never exceed 10, and when
every commit conflicts the loop stops after 10 attempts and surfaces the
last conflict. -/
theorem c4_bounded_retry (commit commit2 : Nat → Option GErr)
    (hall : ∀ n, commit2 n = some GErr.conflict) :
    (goroutineTrace commit).1.length ≤ 10 ∧
    (goroutineTrace commit).1 = firstAttemptOps ::
      List.replicate ((goroutineTrace commit).1.length - 1)
        retryAttemptOps ∧
    (goroutineTrace commit2).2 = some GErr.conflict ∧
    (goroutineTrace commit2).1.length = 10 := by
  refine ⟨?_, ?_, ?_, ?_⟩
  · have hb := retryFrom_length_le commit 1 (commit 0)
    simp only [goroutineTrace, List.length_cons]
    omega
  · simp only [goroutineTrace, List.length_cons, Nat.add_sub_cancel]
    exact congrArg (firstAttemptOps :: ·)
      (retryFrom_replicate commit 1 (commit 0))
  · simp only [goroutineTrace, hall 0]
    exact (retryFrom_conflict_exhaust commit2 hall 1 (by omega)).1
  · have hb := (retryFrom_conflict_exhaust commit2 hall 1 (by omega)).2
    simp only [goroutineTrace, hall 0, List.length_cons]
    omega

theorem c4_bounded_retry_witness :
    (goroutineTrace (fun _ => none)).1.length ≤ 10 ∧
    (goroutineTrace (fun _ => none)).1 = firstAttemptOps ::
      List.replicate ((goroutineTrace (fun _ => none)).1.length - 1)
        retryAttemptOps ∧
    (goroutineTrace (fun _ => some GErr.conflict)).2 =
      some GErr.conflict ∧
    (goroutineTrace (fun _ => some GErr.conflict)).1.length = 10 :=
  c4_bounded_retry (fun _ => none) (fun _ => some GErr.conflict)
    (fun _ => rfl)

end Onyx
